import Mathlib

/-!
Verification of the lambda-calculus parser in `src/parser.rs`.

The parser is embedded shallowly: the Rust `Parser` holds a `Peekable<Chars>`
iterator, which we model as the list of remaining characters, threaded
explicitly through every function.  Each Rust method becomes a Lean function
returning its result together with the remaining input; this captures the
essential fact that a failing `parse_term` may still have consumed characters
(the `while let Ok(term) = self.parse_term()` loop in `parse_application`
keeps those consumptions).

Character classes: Rust's `char::is_alphanumeric` is Unicode-aware; in
particular it is true for the Greek letter `λ`.  We model it as ASCII
alphanumerics plus `λ`, which agrees with Rust on every character that can
appear in the inputs considered here (ASCII text plus the binder sigil).
Rust's `char::is_whitespace` is modelled by `Char.isWhitespace`
(space, tab, carriage return, newline), agreeing with Rust on those four
characters; whitespace statements below quantify over this set.

Recursion in the Rust parser is replaced by a fuel parameter decremented at
every call; `none` means the fuel ran out.  The theorem `C8_parse_total`
proves that the fuel budget used by `parse` is always sufficient, so the
embedding is total in the same sense as the Rust code.
-/

/-- The `Term` type from `src/term.rs`, as used by the parser:
`Term::Var(String)`, `Term::Abs(String, Box<Term>)`, `Term::App(Box<Term>, Box<Term>)`. -/
inductive Term where
  | Var : String → Term
  | Abs : String → Term → Term
  | App : Term → Term → Term
deriving DecidableEq, Repr

/-- The `ParseError` enum of `src/parser.rs`. -/
inductive ParseError where
  | UnexpectedCharacter : Char → ParseError
  | UnmatchedParenthesis : ParseError
  | InvalidLambda : ParseError
  | InvalidApplication : ParseError
  | InvalidVariable : ParseError
deriving DecidableEq, Repr

/-- Model of Rust's `char::is_alphanumeric` restricted to the characters
relevant to this grammar: ASCII alphanumerics together with `λ`
(which is a Unicode letter, hence alphanumeric in Rust). -/
def rust_is_alphanumeric (c : Char) : Bool :=
  c.isAlphanum || c = 'λ'

/-- The identifier-character test `c.is_alphanumeric() || *c == '_'` used in
`parse_var` and `parse_non_application_term`. -/
def is_ident_char (c : Char) : Bool :=
  rust_is_alphanumeric c || c = '_'

/-- `Parser::skip_whitespace`: drop leading whitespace characters. -/
def skip_whitespace (s : List Char) : List Char :=
  s.dropWhile Char.isWhitespace

/-- The peek-and-collect loop of `Parser::parse_var`: the longest prefix of
identifier characters, paired with the remaining input. -/
def take_ident : List Char → List Char × List Char
  | [] => ([], [])
  | c :: cs =>
    if is_ident_char c then
      let p := take_ident cs
      (c :: p.1, p.2)
    else ([], c :: cs)

/-- `Parser::parse_var`: collect identifier characters; an empty collection is
`ParseError::InvalidVariable`. -/
def parse_var (s : List Char) : Except ParseError String × List Char :=
  let p := take_ident s
  if p.1.isEmpty then (.error .InvalidVariable, p.2) else (.ok (String.mk p.1), p.2)

/-- Result of a fueled parsing function: `none` when the fuel ran out,
otherwise the Rust `TermResult` together with the remaining input. -/
abbrev PResult := Option (Except ParseError Term × List Char)

mutual

/-- `Parser::parse_lambda`: `next()` must be `λ` (else
`UnexpectedCharacter('λ')`), then an identifier (errors mapped to
`InvalidLambda`), optional whitespace, a literal `.` consumed by `next()`
(else `InvalidLambda`), then `parse_term` for the body. -/
def parse_lambda : Nat → List Char → PResult
  | 0, _ => none
  | fuel+1, s =>
    match s with
    | [] => some (.error (.UnexpectedCharacter 'λ'), [])
    | c :: s1 =>
      if c = 'λ' then
        match parse_var s1 with
        | (.error _, s2) => some (.error .InvalidLambda, s2)
        | (.ok bind, s2) =>
          match skip_whitespace s2 with
          | [] => some (.error .InvalidLambda, [])
          | c2 :: s4 =>
            if c2 = '.' then
              match parse_term fuel s4 with
              | none => none
              | some (.error e, s5) => some (.error e, s5)
              | some (.ok body, s5) => some (.ok (.Abs bind body), s5)
            else some (.error .InvalidLambda, s4)
      else some (.error (.UnexpectedCharacter 'λ'), s1)

/-- `Parser::parse_application`: one mandatory `parse_term`, then the
`while let Ok(term) = self.parse_term()` loop, then the vec is left-folded
into nested `App` nodes (`is_empty` / single / fold cases as in the source). -/
def parse_application : Nat → List Char → PResult
  | 0, _ => none
  | fuel+1, s =>
    match parse_term fuel s with
    | none => none
    | some (.error e, s1) => some (.error e, s1)
    | some (.ok t, s1) =>
      match parse_application_loop fuel [t] s1 with
      | none => none
      | some (ts, s2) =>
        match ts with
        | [] => some (.error .InvalidApplication, s2)
        | [t1] => some (.ok t1, s2)
        | t1 :: t2 :: rest => some (.ok ((t2 :: rest).foldl Term.App t1), s2)

/-- The `while let Ok(term) = self.parse_term()` loop of `parse_application`:
on success push and continue; on failure stop, keeping whatever input the
failing `parse_term` consumed. -/
def parse_application_loop : Nat → List Term → List Char → Option (List Term × List Char)
  | 0, _, _ => none
  | fuel+1, acc, s =>
    match parse_term fuel s with
    | none => none
    | some (.ok t, s1) => parse_application_loop fuel (acc ++ [t]) s1
    | some (.error _, s1) => some (acc, s1)

/-- `Parser::parse_non_application_term`: skip whitespace, then by one
character of lookahead: `λ` starts a lambda, an identifier character starts a
variable, anything else (including end of input) is `InvalidApplication`. -/
def parse_non_application_term : Nat → List Char → PResult
  | 0, _ => none
  | fuel+1, s =>
    match skip_whitespace s with
    | [] => some (.error .InvalidApplication, [])
    | c :: s2 =>
      if c = 'λ' then parse_lambda fuel (c :: s2)
      else if is_ident_char c then
        match parse_var (c :: s2) with
        | (.ok name, s3) => some (.ok (.Var name), s3)
        | (.error e, s3) => some (.error e, s3)
      else some (.error .InvalidApplication, c :: s2)

/-- The parenthesized-group dispatch inside `Parser::parse_term`: after the
`(` is consumed, peek decides between `parse_lambda` (on `λ`),
`parse_application` (any other character) and `UnmatchedParenthesis` on end
of input. -/
def parse_group_inner : Nat → List Char → PResult
  | 0, _ => none
  | fuel+1, s2 =>
    match s2 with
    | [] => some (.error .UnmatchedParenthesis, [])
    | c2 :: _ => if c2 = 'λ' then parse_lambda fuel s2 else parse_application fuel s2

/-- `Parser::parse_term`: skip whitespace; a leading `(` is consumed and
commits to a group whose closing character is taken by `next()` and must be
`)` (else, or at end of input, `UnmatchedParenthesis`); otherwise defer to
`parse_non_application_term`. -/
def parse_term : Nat → List Char → PResult
  | 0, _ => none
  | fuel+1, s =>
    match skip_whitespace s with
    | [] => parse_non_application_term fuel []
    | c :: s2 =>
      if c = '(' then
        match parse_group_inner fuel s2 with
        | none => none
        | some (.error e, s3) => some (.error e, s3)
        | some (.ok t, s3) =>
          match s3 with
          | [] => some (.error .UnmatchedParenthesis, [])
          | c3 :: s4 =>
            if c3 = ')' then some (.ok t, s4)
            else some (.error .UnmatchedParenthesis, s4)
      else parse_non_application_term fuel (c :: s2)

end

/-- The body of the public `parse` function at a given fuel: run `parse_term`,
then any remaining character (`chars.peek().is_some()`) is
`InvalidApplication`. -/
def parseF (fuel : Nat) (s : List Char) : Option (Except ParseError Term) :=
  match parse_term fuel s with
  | none => none
  | some (.error e, _) => some (.error e)
  | some (.ok t, r) =>
    match r with
    | [] => some (.ok t)
    | _ :: _ => some (.error .InvalidApplication)

/-- The public `parse` of `src/parser.rs`, run with a fuel budget that is
provably sufficient (theorem `C8_parse_total`); the `getD` default is never
reached. -/
def parse (input : String) : Except ParseError Term :=
  (parseF (4 * input.length + 6) input.data).getD (.error .InvalidApplication)

/-- A string made of identifier characters only, and non-empty: the
identifiers of the grammar. -/
def isIdentStr (s : String) : Bool :=
  !s.data.isEmpty && s.data.all is_ident_char

/-- `r` is empty or starts with a character that cannot extend an identifier. -/
def head_not_ident (r : List Char) : Prop :=
  ∀ c r', r = c :: r' → is_ident_char c = false

/-! ### Basic facts about the helper functions -/

theorem skip_whitespace_nil : skip_whitespace [] = [] := rfl

theorem skip_whitespace_cons_of_ws {c : Char} (t : List Char) (h : c.isWhitespace = true) :
    skip_whitespace (c :: t) = skip_whitespace t := by
  simp [skip_whitespace, List.dropWhile, h]

theorem skip_whitespace_cons_of_not_ws {c : Char} (t : List Char) (h : c.isWhitespace = false) :
    skip_whitespace (c :: t) = c :: t := by
  simp [skip_whitespace, List.dropWhile, h]

theorem skip_whitespace_eq_nil (s : List Char) (h : s.all Char.isWhitespace = true) :
    skip_whitespace s = [] := by
  induction s with
  | nil => rfl
  | cons c t ih =>
    rw [List.all_cons, Bool.and_eq_true] at h
    rw [skip_whitespace_cons_of_ws t h.1]
    exact ih h.2

theorem ident_char_not_ws {c : Char} (h : is_ident_char c = true) :
    c.isWhitespace = false := by
  rcases Bool.eq_false_or_eq_true c.isWhitespace with hw | hw
  · exfalso
    have hc : ((c = ' ' ∨ c = '\t') ∨ c = '\r') ∨ c = '\n' := by
      simpa [Char.isWhitespace] using hw
    rw [or_assoc, or_assoc] at hc
    rcases hc with h1 | h1 | h1 | h1 <;> subst h1 <;> simp [is_ident_char, rust_is_alphanumeric] at h
  · exact hw

theorem ident_char_ne_lparen {c : Char} (h : is_ident_char c = true) : c ≠ '(' := by
  intro he; subst he; simp [is_ident_char, rust_is_alphanumeric] at h

theorem ident_char_ne_rparen {c : Char} (h : is_ident_char c = true) : c ≠ ')' := by
  intro he; subst he; simp [is_ident_char, rust_is_alphanumeric] at h

theorem take_ident_append (a r : List Char) (ha : a.all is_ident_char = true)
    (hr : head_not_ident r) : take_ident (a ++ r) = (a, r) := by
  induction a with
  | nil =>
    simp only [List.nil_append]
    cases r with
    | nil => rfl
    | cons c r' =>
      have hc := hr c r' rfl
      simp [take_ident, hc]
  | cons c t ih =>
    rw [List.all_cons, Bool.and_eq_true] at ha
    simp [take_ident, ha.1, ih ha.2]

theorem parse_var_ident (a r : List Char) (ha : a.all is_ident_char = true)
    (h0 : a ≠ []) (hr : head_not_ident r) :
    parse_var (a ++ r) = (.ok (String.mk a), r) := by
  unfold parse_var
  rw [take_ident_append a r ha hr]
  simp [h0]

theorem take_ident_snd_length (s : List Char) : (take_ident s).2.length ≤ s.length := by
  induction s with
  | nil => simp [take_ident]
  | cons c t ih =>
    by_cases hc : is_ident_char c = true
    · simp only [take_ident, hc, if_true, List.length_cons]
      omega
    · rw [Bool.not_eq_true] at hc
      simp [take_ident, hc]

theorem take_ident_snd_length_lt (s : List Char) (h : ((take_ident s).1.isEmpty) = false) :
    (take_ident s).2.length < s.length := by
  cases s with
  | nil => simp [take_ident] at h
  | cons c t =>
    by_cases hc : is_ident_char c = true
    · simp only [take_ident, hc, if_true, List.length_cons]
      have := take_ident_snd_length t
      omega
    · rw [Bool.not_eq_true] at hc
      simp [take_ident, hc] at h

theorem skip_whitespace_length (s : List Char) :
    (skip_whitespace s).length ≤ s.length := by
  induction s with
  | nil => simp [skip_whitespace]
  | cons c t ih =>
    by_cases hc : c.isWhitespace = true
    · rw [skip_whitespace_cons_of_ws t hc]
      simp only [List.length_cons]
      omega
    · rw [Bool.not_eq_true] at hc
      rw [skip_whitespace_cons_of_not_ws t hc]

/-! ### Claim theorems: concrete behaviours -/

theorem parse_ok_full_consumption (input : String) (t : Term) (h : parse input = .ok t) :
    parse_term (4 * input.length + 6) input.data = some (.ok t, []) := by
  unfold parse parseF at h
  cases hpt : parse_term (4 * input.length + 6) input.data with
  | none => rw [hpt] at h; simp at h
  | some r =>
    obtain ⟨res, rest⟩ := r
    rw [hpt] at h
    cases res with
    | error e => simp at h
    | ok t' =>
      cases rest with
      | nil => simp at h; rw [h]
      | cons c cs => simp at h

/-- C1: the unparenthesized application `(λx. x) (λy. y)` fails with the
trailing-input `InvalidApplication` error, the parenthesized
`((λx. x) (λy. y))` parses, and in general `parse` succeeds only when
`parse_term` consumed the entire input. -/
theorem C1_whole_input_or_fail :
    parse "(λx. x) (λy. y)" = .error .InvalidApplication ∧
    parse "((λx. x) (λy. y))" = .ok (.App (.Abs "x" (.Var "x")) (.Abs "y" (.Var "y"))) ∧
    ∀ (input : String) (t : Term), parse input = .ok t →
      parse_term (4 * input.length + 6) input.data = some (.ok t, []) :=
  ⟨rfl, rfl, parse_ok_full_consumption⟩

/-- C1 witness: the general consumption statement applied at the input `x`. -/
theorem C1_whole_input_or_fail_witness :
    parse_term (4 * ("x" : String).length + 6) ("x" : String).data = some (.ok (.Var "x"), []) :=
  C1_whole_input_or_fail.2.2 "x" (.Var "x") rfl

/-- C3 counterexample: `λx. x y` does not parse to `Abs("x", App(Var "x", Var "y"))`;
it fails with `InvalidApplication` (the lambda body stops at the variable `x`
and ` y` is trailing input). -/
theorem C3_cex_body_not_application : parse "λx. x y" = .error .InvalidApplication := rfl

/-- C3 (amended): a lambda's body is a single non-application term unless
parenthesized: `λx. x y` fails with `InvalidApplication` (trailing input) and
`(λx. x x)` fails with `UnmatchedParenthesis`; with explicit parentheses the
bodies parse: `λx. (x y)` and `(λx. (x x))` yield the expected abstractions. -/
theorem C3_lambda_body_needs_parens :
    parse "λx. x y" = .error .InvalidApplication ∧
    parse "(λx. x x)" = .error .UnmatchedParenthesis ∧
    parse "λx. (x y)" = .ok (.Abs "x" (.App (.Var "x") (.Var "y"))) ∧
    parse "(λx. (x x))" = .ok (.Abs "x" (.App (.Var "x") (.Var "x"))) :=
  ⟨rfl, rfl, rfl, rfl⟩

/-- C5 counterexample: `λ x. x` does not parse; whitespace between the binder
sigil and the identifier makes `parse_var` collect zero characters, reported
as `InvalidLambda`. -/
theorem C5_cex_space_after_sigil : parse "λ x. x" = .error .InvalidLambda := rfl

/-- C5 (amended): whitespace is insignificant between tokens except between
the binder sigil and the bound identifier: `λ x. x` fails with
`InvalidLambda`, while `λx. x`, `λx . x` and `λx.  x` all parse to
`Abs("x", Var "x")`. -/
theorem C5_no_space_after_sigil :
    parse "λ x. x" = .error .InvalidLambda ∧
    parse "λx. x" = .ok (.Abs "x" (.Var "x")) ∧
    parse "λx . x" = .ok (.Abs "x" (.Var "x")) ∧
    parse "λx.  x" = .ok (.Abs "x" (.Var "x")) :=
  ⟨rfl, rfl, rfl, rfl⟩

/-- C4 counterexample: the claim's own example `x ` (a valid term followed by
one space) does not parse successfully: `parse` reports the trailing space as
`InvalidApplication`, though `x` alone parses. -/
theorem C4_cex_trailing_whitespace :
    parse "x " = .error .InvalidApplication ∧ parse "x" = .ok (.Var "x") :=
  ⟨rfl, rfl⟩

/-- C2 counterexample: `λ` is a valid identifier string (Rust's
`char::is_alphanumeric('λ')` is true), yet for a = `λ`, b = `b`, c = `c` the
input `(λ b c)` does not parse to an application: the leading `λ` commits the
group to a lambda, which fails with `InvalidLambda`. -/
theorem C2_cex_lambda_identifier :
    isIdentStr "λ" = true ∧ parse "(λ b c)" = .error .InvalidLambda :=
  ⟨rfl, rfl⟩

/-- C9 counterexample: `λ` is a valid identifier string, yet `(λ)` does not
parse to `Var "λ"`: the `λ` commits the group to a lambda, which fails with
`InvalidLambda`. -/
theorem C9_cex_lambda_identifier :
    isIdentStr "λ" = true ∧ parse "(λ)" = .error .InvalidLambda :=
  ⟨rfl, rfl⟩

/-- C10: on empty input, and on input consisting only of whitespace
characters, `parse` returns `Err(InvalidApplication)`. -/
theorem C10_empty_or_whitespace (s : String) (h : s.data.all Char.isWhitespace = true) :
    parse s = .error .InvalidApplication := by
  have hf : 4 * s.length + 6 = (4 * s.length + 4) + 1 + 1 := by omega
  unfold parse parseF
  rw [hf]
  simp only [parse_term, skip_whitespace_eq_nil s.data h, parse_non_application_term,
    skip_whitespace_nil]
  rfl

/-- C10 witness: the statement applied to the empty input and to a space. -/
theorem C10_empty_or_whitespace_witness :
    parse "" = .error .InvalidApplication ∧ parse " " = .error .InvalidApplication :=
  ⟨C10_empty_or_whitespace "" rfl, C10_empty_or_whitespace " " rfl⟩

/-! ### Symbolic traces: parsing a variable, stopping at a non-term character -/

theorem parse_term_var (f : Nat) (s a r : List Char)
    (hs : skip_whitespace s = a ++ r) (ha : a.all is_ident_char = true) (h0 : a ≠ [])
    (hl : a.head? ≠ some 'λ') (hr : head_not_ident r) :
    parse_term (f + 2) s = some (.ok (.Var (String.mk a)), r) := by
  obtain ⟨c0, a', rfl⟩ : ∃ c0 a', a = c0 :: a' := by
    cases a with
    | nil => exact absurd rfl h0
    | cons c0 a' => exact ⟨c0, a', rfl⟩
  rw [List.all_cons, Bool.and_eq_true] at ha
  have hc0l : c0 ≠ 'λ' := by
    intro he; exact hl (by rw [he]; rfl)
  have hc0p : c0 ≠ '(' := ident_char_ne_lparen ha.1
  have hc0w : c0.isWhitespace = false := ident_char_not_ws ha.1
  have hvar : parse_var (c0 :: (a' ++ r)) = (.ok (String.mk (c0 :: a')), r) := by
    rw [show c0 :: (a' ++ r) = (c0 :: a') ++ r from rfl]
    exact parse_var_ident _ _ (by simp [ha.1, ha.2]) (by simp) hr
  simp only [parse_term, hs, List.cons_append, hc0p, if_false,
    parse_non_application_term, skip_whitespace_cons_of_not_ws _ hc0w, hc0l, ha.1,
    if_true, hvar]

theorem parse_term_stop (f : Nat) (s : List Char) (c : Char) (r : List Char)
    (hs : skip_whitespace s = c :: r) (hw : c.isWhitespace = false) (hp : c ≠ '(')
    (hl : c ≠ 'λ') (hi : is_ident_char c = false) :
    parse_term (f + 2) s = some (.error .InvalidApplication, c :: r) := by
  simp only [parse_term, hs, hp, if_false, parse_non_application_term,
    skip_whitespace_cons_of_not_ws r hw, hl, hi, Bool.false_eq_true]

theorem head_not_ident_rparen (r : List Char) : head_not_ident (')' :: r) := by
  intro c r' h
  injection h with h1 h2
  subst h1
  rfl

theorem head_not_ident_space (r : List Char) : head_not_ident (' ' :: r) := by
  intro c r' h
  injection h with h1 h2
  subst h1
  rfl

theorem parse_term_stop_rparen (f : Nat) (r : List Char) :
    parse_term (f + 2) (')' :: r) = some (.error .InvalidApplication, ')' :: r) :=
  parse_term_stop f _ ')' r (skip_whitespace_cons_of_not_ws r rfl) rfl
    (by decide) (by decide) rfl

/-- Trace of `parse_term` on a parenthesized single variable `(x…)`:
the group commits to `parse_application`, which parses one variable, the
greedy loop stops at the `)`, and the single-element vec yields the variable
itself with no `App` node. -/
theorem parse_term_group_var (f : Nat) (x r : List Char)
    (hx : x.all is_ident_char = true) (h0 : x ≠ []) (hl : x.head? ≠ some 'λ') :
    parse_term (f + 6) ('(' :: (x ++ ')' :: r)) = some (.ok (.Var (String.mk x)), r) := by
  obtain ⟨c0, x', rfl⟩ : ∃ c0 x', x = c0 :: x' := by
    cases x with
    | nil => exact absurd rfl h0
    | cons c0 x' => exact ⟨c0, x', rfl⟩
  have hc0i : is_ident_char c0 = true := by
    rw [List.all_cons, Bool.and_eq_true] at hx
    exact hx.1
  have hc0l : c0 ≠ 'λ' := by
    intro he; exact hl (by rw [he]; rfl)
  have hc0w : c0.isWhitespace = false := ident_char_not_ws hc0i
  have hTV : parse_term (f + 3) (c0 :: (x' ++ ')' :: r)) =
      some (.ok (.Var (String.mk (c0 :: x'))), ')' :: r) := by
    refine parse_term_var (f + 1) _ (c0 :: x') (')' :: r) ?_ hx h0 hl (head_not_ident_rparen r)
    rw [skip_whitespace_cons_of_not_ws _ hc0w]
    rfl
  have hloop : parse_application_loop (f + 3) [Term.Var (String.mk (c0 :: x'))] (')' :: r) =
      some ([Term.Var (String.mk (c0 :: x'))], ')' :: r) := by
    have hstop := parse_term_stop_rparen f r
    simp only [parse_application_loop, hstop]
  have hApp : parse_application (f + 4) (c0 :: (x' ++ ')' :: r)) =
      some (.ok (.Var (String.mk (c0 :: x'))), ')' :: r) := by
    simp only [parse_application, hTV, hloop]
  have hGroup : parse_group_inner (f + 5) (c0 :: (x' ++ ')' :: r)) =
      some (.ok (.Var (String.mk (c0 :: x'))), ')' :: r) := by
    simp only [parse_group_inner, hc0l, if_false, hApp]
  have hskip : skip_whitespace ('(' :: (c0 :: (x' ++ ')' :: r))) =
      '(' :: (c0 :: (x' ++ ')' :: r)) := skip_whitespace_cons_of_not_ws _ rfl
  simp only [List.cons_append, parse_term, hskip, hGroup, if_true]

/-- C9 (amended): for every identifier `x` not beginning with the binder
sigil `λ`, `parse "(x)"` succeeds and yields `Var x` itself, with no
application node.  (Identifiers may begin with `λ` — it is alphanumeric for
Rust — but then the group commits to a lambda and parsing fails, see
`C9_cex_lambda_identifier`.) -/
theorem C9_single_term_group (x : String) (hx : isIdentStr x = true)
    (hl : x.data.head? ≠ some 'λ') :
    parse ("(" ++ x ++ ")") = .ok (.Var x) := by
  rw [isIdentStr, Bool.and_eq_true, Bool.not_eq_true', List.isEmpty_eq_false] at hx
  have hdata : ("(" ++ x ++ ")").data = '(' :: (x.data ++ ')' :: []) := by
    simp [String.data_append]
  have hlen : ("(" ++ x ++ ")").length = x.length + 2 := by
    simp [String.length_append, show ("(" : String).length = 1 from rfl,
      show (")" : String).length = 1 from rfl]
    omega
  unfold parse parseF
  rw [hdata, hlen, show 4 * (x.length + 2) + 6 = (4 * x.length + 8) + 6 from by omega]
  rw [parse_term_group_var (4 * x.length + 8) x.data [] hx.2 hx.1 hl]
  rfl

/-- C9 witness: the amended statement applied at the identifier `y`. -/
theorem C9_single_term_group_witness : parse ("(" ++ "y" ++ ")") = .ok (.Var "y") :=
  C9_single_term_group "y" rfl (by decide)

theorem loop_stop_rparen (f : Nat) (acc : List Term) (r : List Char) :
    parse_application_loop (f + 3) acc (')' :: r) = some (acc, ')' :: r) := by
  have hstop := parse_term_stop_rparen f r
  simp only [parse_application_loop, hstop]

theorem loop_step (f : Nat) (acc : List Term) (s : List Char) (t : Term) (s1 : List Char)
    (h : parse_term f s = some (.ok t, s1)) :
    parse_application_loop (f + 1) acc s = parse_application_loop f (acc ++ [t]) s1 := by
  simp only [parse_application_loop, h]

/-- Trace of `parse_term` on a two-variable group `(a b…)`: the application
loop collects both variables and folds them into one `App` node. -/
theorem parse_term_group2 (f : Nat) (a b r : List Char)
    (ha : a.all is_ident_char = true) (ha0 : a ≠ []) (hal : a.head? ≠ some 'λ')
    (hb : b.all is_ident_char = true) (hb0 : b ≠ []) (hbl : b.head? ≠ some 'λ') :
    parse_term (f + 7) ('(' :: (a ++ ' ' :: (b ++ ')' :: r))) =
      some (.ok (.App (.Var (String.mk a)) (.Var (String.mk b))), r) := by
  obtain ⟨a0, a', rfl⟩ : ∃ c0 t, a = c0 :: t := by
    cases a with
    | nil => exact absurd rfl ha0
    | cons c t => exact ⟨c, t, rfl⟩
  obtain ⟨b0, b', rfl⟩ : ∃ c0 t, b = c0 :: t := by
    cases b with
    | nil => exact absurd rfl hb0
    | cons c t => exact ⟨c, t, rfl⟩
  have ha0i : is_ident_char a0 = true := by
    rw [List.all_cons, Bool.and_eq_true] at ha; exact ha.1
  have hb0i : is_ident_char b0 = true := by
    rw [List.all_cons, Bool.and_eq_true] at hb; exact hb.1
  have ha0l : a0 ≠ 'λ' := fun he => hal (by rw [he]; rfl)
  have ha0w := ident_char_not_ws ha0i
  have hb0w := ident_char_not_ws hb0i
  have hTVa : parse_term (f + 4) (a0 :: (a' ++ ' ' :: (b0 :: (b' ++ ')' :: r)))) =
      some (.ok (.Var (String.mk (a0 :: a'))), ' ' :: (b0 :: (b' ++ ')' :: r))) := by
    refine parse_term_var (f + 2) _ (a0 :: a') _ ?_ ha ha0 hal (head_not_ident_space _)
    rw [skip_whitespace_cons_of_not_ws _ ha0w]; rfl
  have hTVb : parse_term (f + 3) (' ' :: (b0 :: (b' ++ ')' :: r))) =
      some (.ok (.Var (String.mk (b0 :: b'))), ')' :: r) := by
    refine parse_term_var (f + 1) _ (b0 :: b') _ ?_ hb hb0 hbl (head_not_ident_rparen _)
    rw [@skip_whitespace_cons_of_ws ' ' _ rfl, skip_whitespace_cons_of_not_ws _ hb0w]; rfl
  have hloop : parse_application_loop (f + 4) [Term.Var (String.mk (a0 :: a'))]
      (' ' :: (b0 :: (b' ++ ')' :: r))) =
      some ([Term.Var (String.mk (a0 :: a')), Term.Var (String.mk (b0 :: b'))], ')' :: r) := by
    rw [loop_step (f + 3) _ _ _ _ hTVb]
    exact loop_stop_rparen f _ r
  have hApp : parse_application (f + 5) (a0 :: (a' ++ ' ' :: (b0 :: (b' ++ ')' :: r)))) =
      some (.ok (.App (.Var (String.mk (a0 :: a'))) (.Var (String.mk (b0 :: b')))), ')' :: r) := by
    simp only [parse_application, hTVa, hloop]
    rfl
  have hGroup : parse_group_inner (f + 6) (a0 :: (a' ++ ' ' :: (b0 :: (b' ++ ')' :: r)))) =
      some (.ok (.App (.Var (String.mk (a0 :: a'))) (.Var (String.mk (b0 :: b')))), ')' :: r) := by
    simp only [parse_group_inner, ha0l, if_false, hApp]
  have hskip : skip_whitespace ('(' :: (a0 :: (a' ++ ' ' :: (b0 :: (b' ++ ')' :: r))))) =
      '(' :: (a0 :: (a' ++ ' ' :: (b0 :: (b' ++ ')' :: r)))) :=
    skip_whitespace_cons_of_not_ws _ rfl
  simp only [List.cons_append, parse_term, hskip, hGroup, if_true]

/-- Trace of `parse_term` on a three-variable group `(a b c…)`: the
application loop collects all three variables and left-folds them, giving
`App(App(a, b), c)`. -/
theorem parse_term_group3 (f : Nat) (a b c r : List Char)
    (ha : a.all is_ident_char = true) (ha0 : a ≠ []) (hal : a.head? ≠ some 'λ')
    (hb : b.all is_ident_char = true) (hb0 : b ≠ []) (hbl : b.head? ≠ some 'λ')
    (hc : c.all is_ident_char = true) (hc0 : c ≠ []) (hcl : c.head? ≠ some 'λ') :
    parse_term (f + 8) ('(' :: (a ++ ' ' :: (b ++ ' ' :: (c ++ ')' :: r)))) =
      some (.ok (.App (.App (.Var (String.mk a)) (.Var (String.mk b))) (.Var (String.mk c))), r) := by
  obtain ⟨a0, a', rfl⟩ : ∃ c0 t, a = c0 :: t := by
    cases a with
    | nil => exact absurd rfl ha0
    | cons x t => exact ⟨x, t, rfl⟩
  obtain ⟨b0, b', rfl⟩ : ∃ c0 t, b = c0 :: t := by
    cases b with
    | nil => exact absurd rfl hb0
    | cons x t => exact ⟨x, t, rfl⟩
  obtain ⟨c0, c', rfl⟩ : ∃ x0 t, c = x0 :: t := by
    cases c with
    | nil => exact absurd rfl hc0
    | cons x t => exact ⟨x, t, rfl⟩
  have ha0i : is_ident_char a0 = true := by
    rw [List.all_cons, Bool.and_eq_true] at ha; exact ha.1
  have hb0i : is_ident_char b0 = true := by
    rw [List.all_cons, Bool.and_eq_true] at hb; exact hb.1
  have hc0i : is_ident_char c0 = true := by
    rw [List.all_cons, Bool.and_eq_true] at hc; exact hc.1
  have ha0l : a0 ≠ 'λ' := fun he => hal (by rw [he]; rfl)
  have ha0w := ident_char_not_ws ha0i
  have hb0w := ident_char_not_ws hb0i
  have hc0w := ident_char_not_ws hc0i
  have hTVa : parse_term (f + 5)
      (a0 :: (a' ++ ' ' :: (b0 :: (b' ++ ' ' :: (c0 :: (c' ++ ')' :: r)))))) =
      some (.ok (.Var (String.mk (a0 :: a'))),
        ' ' :: (b0 :: (b' ++ ' ' :: (c0 :: (c' ++ ')' :: r))))) := by
    refine parse_term_var (f + 3) _ (a0 :: a') _ ?_ ha ha0 hal (head_not_ident_space _)
    rw [skip_whitespace_cons_of_not_ws _ ha0w]; rfl
  have hTVb : parse_term (f + 4) (' ' :: (b0 :: (b' ++ ' ' :: (c0 :: (c' ++ ')' :: r))))) =
      some (.ok (.Var (String.mk (b0 :: b'))), ' ' :: (c0 :: (c' ++ ')' :: r))) := by
    refine parse_term_var (f + 2) _ (b0 :: b') _ ?_ hb hb0 hbl (head_not_ident_space _)
    rw [@skip_whitespace_cons_of_ws ' ' _ rfl, skip_whitespace_cons_of_not_ws _ hb0w]; rfl
  have hTVc : parse_term (f + 3) (' ' :: (c0 :: (c' ++ ')' :: r))) =
      some (.ok (.Var (String.mk (c0 :: c'))), ')' :: r) := by
    refine parse_term_var (f + 1) _ (c0 :: c') _ ?_ hc hc0 hcl (head_not_ident_rparen _)
    rw [@skip_whitespace_cons_of_ws ' ' _ rfl, skip_whitespace_cons_of_not_ws _ hc0w]; rfl
  have hloop : parse_application_loop (f + 5) [Term.Var (String.mk (a0 :: a'))]
      (' ' :: (b0 :: (b' ++ ' ' :: (c0 :: (c' ++ ')' :: r))))) =
      some ([Term.Var (String.mk (a0 :: a')), Term.Var (String.mk (b0 :: b')),
        Term.Var (String.mk (c0 :: c'))], ')' :: r) := by
    rw [loop_step (f + 4) _ _ _ _ hTVb, loop_step (f + 3) _ _ _ _ hTVc]
    exact loop_stop_rparen f _ r
  have hApp : parse_application (f + 6)
      (a0 :: (a' ++ ' ' :: (b0 :: (b' ++ ' ' :: (c0 :: (c' ++ ')' :: r)))))) =
      some (.ok (.App (.App (.Var (String.mk (a0 :: a'))) (.Var (String.mk (b0 :: b'))))
        (.Var (String.mk (c0 :: c')))), ')' :: r) := by
    simp only [parse_application, hTVa, hloop]
    rfl
  have hGroup : parse_group_inner (f + 7)
      (a0 :: (a' ++ ' ' :: (b0 :: (b' ++ ' ' :: (c0 :: (c' ++ ')' :: r)))))) =
      some (.ok (.App (.App (.Var (String.mk (a0 :: a'))) (.Var (String.mk (b0 :: b'))))
        (.Var (String.mk (c0 :: c')))), ')' :: r) := by
    simp only [parse_group_inner, ha0l, if_false, hApp]
  have hskip : skip_whitespace
      ('(' :: (a0 :: (a' ++ ' ' :: (b0 :: (b' ++ ' ' :: (c0 :: (c' ++ ')' :: r))))))) =
      '(' :: (a0 :: (a' ++ ' ' :: (b0 :: (b' ++ ' ' :: (c0 :: (c' ++ ')' :: r)))))) :=
    skip_whitespace_cons_of_not_ws _ rfl
  simp only [List.cons_append, parse_term, hskip, hGroup, if_true]

/-- Trace of `parse_term` on `((a b) c…)`: the first element of the outer
application is itself a parenthesized two-variable group. -/
theorem parse_term_group_left (f : Nat) (a b c r : List Char)
    (ha : a.all is_ident_char = true) (ha0 : a ≠ []) (hal : a.head? ≠ some 'λ')
    (hb : b.all is_ident_char = true) (hb0 : b ≠ []) (hbl : b.head? ≠ some 'λ')
    (hc : c.all is_ident_char = true) (hc0 : c ≠ []) (hcl : c.head? ≠ some 'λ') :
    parse_term (f + 10) ('(' :: ('(' :: (a ++ ' ' :: (b ++ ')' :: (' ' :: (c ++ ')' :: r)))))) =
      some (.ok (.App (.App (.Var (String.mk a)) (.Var (String.mk b))) (.Var (String.mk c))), r) := by
  obtain ⟨c0, c', rfl⟩ : ∃ x0 t, c = x0 :: t := by
    cases c with
    | nil => exact absurd rfl hc0
    | cons x t => exact ⟨x, t, rfl⟩
  have hc0i : is_ident_char c0 = true := by
    rw [List.all_cons, Bool.and_eq_true] at hc; exact hc.1
  have hc0w := ident_char_not_ws hc0i
  have hG2 : parse_term (f + 7) ('(' :: (a ++ ' ' :: (b ++ ')' :: (' ' :: (c0 :: (c' ++ ')' :: r)))))) =
      some (.ok (.App (.Var (String.mk a)) (.Var (String.mk b))), ' ' :: (c0 :: (c' ++ ')' :: r))) :=
    parse_term_group2 f a b (' ' :: (c0 :: (c' ++ ')' :: r))) ha ha0 hal hb hb0 hbl
  have hTVc : parse_term (f + 6) (' ' :: (c0 :: (c' ++ ')' :: r))) =
      some (.ok (.Var (String.mk (c0 :: c'))), ')' :: r) := by
    refine parse_term_var (f + 4) _ (c0 :: c') _ ?_ hc hc0 hcl (head_not_ident_rparen _)
    rw [@skip_whitespace_cons_of_ws ' ' _ rfl, skip_whitespace_cons_of_not_ws _ hc0w]; rfl
  have hloop : parse_application_loop (f + 7)
      [Term.App (Term.Var (String.mk a)) (Term.Var (String.mk b))]
      (' ' :: (c0 :: (c' ++ ')' :: r))) =
      some ([Term.App (Term.Var (String.mk a)) (Term.Var (String.mk b)),
        Term.Var (String.mk (c0 :: c'))], ')' :: r) := by
    rw [loop_step (f + 6) _ _ _ _ hTVc]
    exact loop_stop_rparen (f + 3) _ r
  have hApp : parse_application (f + 8)
      ('(' :: (a ++ ' ' :: (b ++ ')' :: (' ' :: (c0 :: (c' ++ ')' :: r)))))) =
      some (.ok (.App (.App (.Var (String.mk a)) (.Var (String.mk b)))
        (.Var (String.mk (c0 :: c')))), ')' :: r) := by
    simp only [parse_application, hG2, hloop]
    rfl
  have hne : ('(' : Char) ≠ 'λ' := by decide
  have hGroup : parse_group_inner (f + 9)
      ('(' :: (a ++ ' ' :: (b ++ ')' :: (' ' :: (c0 :: (c' ++ ')' :: r)))))) =
      some (.ok (.App (.App (.Var (String.mk a)) (.Var (String.mk b)))
        (.Var (String.mk (c0 :: c')))), ')' :: r) := by
    simp only [parse_group_inner, hne, if_false, hApp]
  have hskip : skip_whitespace
      ('(' :: ('(' :: (a ++ ' ' :: (b ++ ')' :: (' ' :: (c0 :: (c' ++ ')' :: r))))))) =
      '(' :: ('(' :: (a ++ ' ' :: (b ++ ')' :: (' ' :: (c0 :: (c' ++ ')' :: r)))))) :=
    skip_whitespace_cons_of_not_ws _ rfl
  simp only [List.cons_append, parse_term, hskip, hGroup, if_true]

/-- C2 (amended): for all identifiers a, b, c none of which begins with the
binder sigil `λ`, `parse "(a b c)"` succeeds and yields
`App(App(Var a, Var b), Var c)`, the same shape that `parse "((a b) c)"`
yields.  (An identifier beginning with `λ` — alphanumeric for Rust — instead
commits the group to a lambda, see `C2_cex_lambda_identifier`.) -/
theorem C2_left_assoc (a b c : String)
    (ha : isIdentStr a = true) (hb : isIdentStr b = true) (hc : isIdentStr c = true)
    (hal : a.data.head? ≠ some 'λ') (hbl : b.data.head? ≠ some 'λ')
    (hcl : c.data.head? ≠ some 'λ') :
    parse ("(" ++ a ++ " " ++ b ++ " " ++ c ++ ")") =
      .ok (.App (.App (.Var a) (.Var b)) (.Var c)) ∧
    parse ("((" ++ a ++ " " ++ b ++ ") " ++ c ++ ")") =
      .ok (.App (.App (.Var a) (.Var b)) (.Var c)) := by
  rw [isIdentStr, Bool.and_eq_true, Bool.not_eq_true', List.isEmpty_eq_false] at ha hb hc
  constructor
  · have hdata : ("(" ++ a ++ " " ++ b ++ " " ++ c ++ ")").data =
        '(' :: (a.data ++ ' ' :: (b.data ++ ' ' :: (c.data ++ ')' :: []))) := by
      simp [String.data_append]
    have hlen : ("(" ++ a ++ " " ++ b ++ " " ++ c ++ ")").length =
        a.length + b.length + c.length + 4 := by
      simp [String.length_append, show ("(" : String).length = 1 from rfl,
        show (")" : String).length = 1 from rfl, show (" " : String).length = 1 from rfl]
      omega
    unfold parse parseF
    rw [hdata, hlen, show 4 * (a.length + b.length + c.length + 4) + 6 =
      (4 * (a.length + b.length + c.length) + 14) + 8 from by omega]
    rw [parse_term_group3 _ a.data b.data c.data [] ha.2 ha.1 hal hb.2 hb.1 hbl hc.2 hc.1 hcl]
    rfl
  · have hdata : ("((" ++ a ++ " " ++ b ++ ") " ++ c ++ ")").data =
        '(' :: ('(' :: (a.data ++ ' ' :: (b.data ++ ')' :: (' ' :: (c.data ++ ')' :: []))))) := by
      simp [String.data_append]
    have hlen : ("((" ++ a ++ " " ++ b ++ ") " ++ c ++ ")").length =
        a.length + b.length + c.length + 6 := by
      simp [String.length_append, show ("((" : String).length = 2 from rfl,
        show (")" : String).length = 1 from rfl, show (") " : String).length = 2 from rfl,
        show (" " : String).length = 1 from rfl]
      omega
    unfold parse parseF
    rw [hdata, hlen, show 4 * (a.length + b.length + c.length + 6) + 6 =
      (4 * (a.length + b.length + c.length) + 20) + 10 from by omega]
    rw [parse_term_group_left _ a.data b.data c.data [] ha.2 ha.1 hal hb.2 hb.1 hbl hc.2 hc.1 hcl]
    rfl

/-- C2 witness: the amended statement applied at a = `f`, b = `x`, c = `y`. -/
theorem C2_left_assoc_witness :
    parse ("(" ++ "f" ++ " " ++ "x" ++ " " ++ "y" ++ ")") =
      .ok (.App (.App (.Var "f") (.Var "x")) (.Var "y")) ∧
    parse ("((" ++ "f" ++ " " ++ "x" ++ ") " ++ "y" ++ ")") =
      .ok (.App (.App (.Var "f") (.Var "x")) (.Var "y")) :=
  C2_left_assoc "f" "x" "y" rfl rfl rfl (by decide) (by decide) (by decide)

/-- C7 counterexample: reading an opening parenthesis and hitting end of
input before the group is closed does not always yield
`UnmatchedParenthesis`: on `(λ` the group's body itself fails first and
`parse` propagates `InvalidLambda`; on `( ` it propagates
`InvalidApplication`. -/
theorem C7_cex_inner_error_propagated :
    parse "(λ" = .error .InvalidLambda ∧
    parse "( " = .error .InvalidApplication :=
  ⟨rfl, rfl⟩

/-- C7 (amended): after an opening parenthesis, `UnmatchedParenthesis` is
reported exactly when the group body parses successfully but the character
at the closing position is missing (end of input) or is anything other than
`)` — the inputs `(`, `(x` and `(λx. x]` all fail this way; when the group
body itself fails to parse, that inner error is propagated unchanged
instead, as on `(λ` (`InvalidLambda`) and `( ` (`InvalidApplication`). -/
theorem C7_unmatched_paren :
    parse "(" = .error .UnmatchedParenthesis ∧
    parse "(x" = .error .UnmatchedParenthesis ∧
    parse "(λx. x]" = .error .UnmatchedParenthesis ∧
    parse "(λ" = .error .InvalidLambda ∧
    parse "( " = .error .InvalidApplication ∧
    (∀ (f : Nat) (s2 : List Char) (t : Term) (r : List Char),
      parse_group_inner f s2 = some (.ok t, r) →
      (∀ c r', r = c :: r' → c ≠ ')') →
      ∃ r'', parse_term (f + 1) ('(' :: s2) = some (.error .UnmatchedParenthesis, r'')) ∧
    (∀ (f : Nat) (s2 : List Char) (e : ParseError) (r : List Char),
      parse_group_inner f s2 = some (.error e, r) →
      parse_term (f + 1) ('(' :: s2) = some (.error e, r)) := by
  refine ⟨rfl, rfl, rfl, rfl, rfl, ?_, ?_⟩
  · intro f s2 t r hinner hr
    have hskip : skip_whitespace ('(' :: s2) = '(' :: s2 := skip_whitespace_cons_of_not_ws _ rfl
    cases r with
    | nil =>
      refine ⟨[], ?_⟩
      simp only [parse_term, hskip, hinner, if_true]
    | cons c r' =>
      have hc : c ≠ ')' := hr c r' rfl
      refine ⟨r', ?_⟩
      simp only [parse_term, hskip, hinner, hc, if_true, if_false]
  · intro f s2 e r hinner
    have hskip : skip_whitespace ('(' :: s2) = '(' :: s2 := skip_whitespace_cons_of_not_ws _ rfl
    simp only [parse_term, hskip, hinner, if_true]

/-- C7 witness: the missing-close statement applied to the group body `x]`,
and the error-propagation statement applied to the group body `λ`. -/
theorem C7_unmatched_paren_witness :
    (∃ r'', parse_term (5 + 1) ('(' :: ['x', ']']) =
      some (.error .UnmatchedParenthesis, r'')) ∧
    parse_term (3 + 1) ('(' :: ['λ']) = some (.error .InvalidLambda, []) :=
  ⟨C7_unmatched_paren.2.2.2.2.2.1 5 ['x', ']'] (.Var "x") [']'] rfl
    (fun c r' h => by cases h; decide),
   C7_unmatched_paren.2.2.2.2.2.2 3 ['λ'] .InvalidLambda [] rfl⟩

theorem parse_var_ok_of_ident_head (c : Char) (s2 : List Char)
    (h : is_ident_char c = true) :
    ∃ n s3, parse_var (c :: s2) = (.ok n, s3) := by
  unfold parse_var take_ident
  simp [h]

/-- The errors actually produced by the parsing functions: only
`UnmatchedParenthesis`, `InvalidLambda` and `InvalidApplication` are
reachable (`parse_lambda` is only ever called with `λ` at the head, so its
`UnexpectedCharacter` branch is dead, and `parse_var` is only called under a
guard that makes `InvalidVariable` impossible). -/
theorem errors_reportable : ∀ f : Nat,
    (∀ s e r, parse_term f s = some (.error e, r) →
      e = .UnmatchedParenthesis ∨ e = .InvalidLambda ∨ e = .InvalidApplication) ∧
    (∀ s e r, parse_non_application_term f s = some (.error e, r) →
      e = .UnmatchedParenthesis ∨ e = .InvalidLambda ∨ e = .InvalidApplication) ∧
    (∀ s e r, s.head? = some 'λ' → parse_lambda f s = some (.error e, r) →
      e = .UnmatchedParenthesis ∨ e = .InvalidLambda ∨ e = .InvalidApplication) ∧
    (∀ s e r, parse_application f s = some (.error e, r) →
      e = .UnmatchedParenthesis ∨ e = .InvalidLambda ∨ e = .InvalidApplication) ∧
    (∀ s e r, parse_group_inner f s = some (.error e, r) →
      e = .UnmatchedParenthesis ∨ e = .InvalidLambda ∨ e = .InvalidApplication) := by
  intro f
  induction f with
  | zero =>
    refine ⟨?_, ?_, ?_, ?_, ?_⟩
    · intro s e r h; simp [parse_term] at h
    · intro s e r h; simp [parse_non_application_term] at h
    · intro s e r _ h; simp [parse_lambda] at h
    · intro s e r h; simp [parse_application] at h
    · intro s e r h; simp [parse_group_inner] at h
  | succ f ih =>
    obtain ⟨ihT, ihP, ihL, ihA, ihG⟩ := ih
    have hP : ∀ s e r, parse_non_application_term (f + 1) s = some (.error e, r) →
        e = .UnmatchedParenthesis ∨ e = .InvalidLambda ∨ e = .InvalidApplication := by
      intro s e r h
      simp only [parse_non_application_term] at h
      split at h
      · simp only [Option.some.injEq, Prod.mk.injEq, Except.error.injEq] at h
        exact Or.inr (Or.inr h.1.symm)
      · rename_i c s2 heq
        split at h
        · rename_i hc
          exact ihL (c :: s2) e r (by rw [hc]; rfl) h
        · split at h
          · rename_i hc hi
            split at h
            · simp at h
            · rename_i e' s3 hpv
              obtain ⟨n, s3', hok⟩ := parse_var_ok_of_ident_head c s2 hi
              rw [hok] at hpv
              simp at hpv
          · simp only [Option.some.injEq, Prod.mk.injEq, Except.error.injEq] at h
            exact Or.inr (Or.inr h.1.symm)
    have hL : ∀ s e r, s.head? = some 'λ' → parse_lambda (f + 1) s = some (.error e, r) →
        e = .UnmatchedParenthesis ∨ e = .InvalidLambda ∨ e = .InvalidApplication := by
      intro s e r hhead h
      simp only [parse_lambda] at h
      split at h
      · simp at hhead
      · rename_i c s1
        split at h
        · split at h
          · simp only [Option.some.injEq, Prod.mk.injEq, Except.error.injEq] at h
            exact Or.inr (Or.inl h.1.symm)
          · split at h
            · simp only [Option.some.injEq, Prod.mk.injEq, Except.error.injEq] at h
              exact Or.inr (Or.inl h.1.symm)
            · split at h
              · split at h
                · simp at h
                · rename_i e' s5 hpt
                  simp only [Option.some.injEq, Prod.mk.injEq, Except.error.injEq] at h
                  obtain ⟨he, hr⟩ := h
                  subst he
                  exact ihT _ _ _ hpt
                · simp at h
              · simp only [Option.some.injEq, Prod.mk.injEq, Except.error.injEq] at h
                exact Or.inr (Or.inl h.1.symm)
        · rename_i hc
          rw [List.head?_cons, Option.some.injEq] at hhead
          exact absurd hhead hc
    have hA : ∀ s e r, parse_application (f + 1) s = some (.error e, r) →
        e = .UnmatchedParenthesis ∨ e = .InvalidLambda ∨ e = .InvalidApplication := by
      intro s e r h
      simp only [parse_application] at h
      split at h
      · simp at h
      · rename_i e' s1 hpt
        simp only [Option.some.injEq, Prod.mk.injEq, Except.error.injEq] at h
        obtain ⟨he, hr⟩ := h
        subst he
        exact ihT _ _ _ hpt
      · rename_i t s1 hpt
        split at h
        · simp at h
        · rename_i ts s2 hloop
          split at h
          · simp only [Option.some.injEq, Prod.mk.injEq, Except.error.injEq] at h
            exact Or.inr (Or.inr h.1.symm)
          · simp at h
          · simp at h
    have hG : ∀ s e r, parse_group_inner (f + 1) s = some (.error e, r) →
        e = .UnmatchedParenthesis ∨ e = .InvalidLambda ∨ e = .InvalidApplication := by
      intro s e r h
      simp only [parse_group_inner] at h
      split at h
      · simp only [Option.some.injEq, Prod.mk.injEq, Except.error.injEq] at h
        exact Or.inl h.1.symm
      · rename_i c2 rest
        split at h
        · rename_i hc
          exact ihL _ e r (by rw [hc]; rfl) h
        · exact ihA _ e r h
    have hT : ∀ s e r, parse_term (f + 1) s = some (.error e, r) →
        e = .UnmatchedParenthesis ∨ e = .InvalidLambda ∨ e = .InvalidApplication := by
      intro s e r h
      simp only [parse_term] at h
      split at h
      · exact ihP _ _ _ h
      · rename_i c s2 heq
        split at h
        · split at h
          · simp at h
          · rename_i e' s3 hgi
            simp only [Option.some.injEq, Prod.mk.injEq, Except.error.injEq] at h
            obtain ⟨he, hr⟩ := h
            subst he
            exact ihG _ _ _ hgi
          · rename_i t s3 hgi
            split at h
            · simp only [Option.some.injEq, Prod.mk.injEq, Except.error.injEq] at h
              exact Or.inl h.1.symm
            · rename_i c3 s4
              split at h
              · simp at h
              · simp only [Option.some.injEq, Prod.mk.injEq, Except.error.injEq] at h
                exact Or.inl h.1.symm
        · exact ihP _ _ _ h
    exact ⟨hT, hP, hL, hA, hG⟩

/-- C6 counterexample: the claim fails for `UnexpectedCharacter` — no input
at all makes `parse` return it, since both call sites of `parse_lambda`
first peek a `λ`, leaving its `UnexpectedCharacter` branch dead.  (The same
holds for `InvalidVariable`, see `C6_three_errors_reachable`.) -/
theorem C6_cex_unexpected_character_unreachable :
    ¬ ∃ (s : String) (c : Char), parse s = .error (.UnexpectedCharacter c) := by
  rintro ⟨s, c, h⟩
  unfold parse parseF at h
  cases hpt : parse_term (4 * s.length + 6) s.data with
  | none => rw [hpt] at h; simp at h
  | some r =>
    obtain ⟨res, rest⟩ := r
    rw [hpt] at h
    cases res with
    | error e =>
      simp at h
      subst h
      rcases (errors_reportable _).1 _ _ _ hpt with h1 | h1 | h1 <;> simp at h1
    | ok t =>
      cases rest with
      | nil => simp at h
      | cons a b => simp at h

/-- C6 (amended): exactly three of the five taxonomy cases are produced by
some input — `(` gives `UnmatchedParenthesis`, `λ` gives `InvalidLambda`,
the empty input gives `InvalidApplication` — and every error `parse` returns
is one of those three; `UnexpectedCharacter` and `InvalidVariable` are
unreachable through `parse`. -/
theorem C6_three_errors_reachable :
    parse "(" = .error .UnmatchedParenthesis ∧
    parse "λ" = .error .InvalidLambda ∧
    parse "" = .error .InvalidApplication ∧
    ∀ (s : String) (e : ParseError), parse s = .error e →
      e = .UnmatchedParenthesis ∨ e = .InvalidLambda ∨ e = .InvalidApplication := by
  refine ⟨rfl, rfl, rfl, ?_⟩
  intro s e h
  unfold parse parseF at h
  cases hpt : parse_term (4 * s.length + 6) s.data with
  | none =>
    rw [hpt] at h
    simp at h
    exact Or.inr (Or.inr h.symm)
  | some r =>
    obtain ⟨res, rest⟩ := r
    rw [hpt] at h
    cases res with
    | error e' =>
      simp at h
      subst h
      exact (errors_reportable _).1 _ _ _ hpt
    | ok t =>
      cases rest with
      | nil => simp at h
      | cons a b =>
        simp at h
        exact Or.inr (Or.inr h.symm)

/-- C6 witness: the universal part applied at the input `(`. -/
theorem C6_three_errors_reachable_witness :
    ParseError.UnmatchedParenthesis = ParseError.UnmatchedParenthesis ∨
    ParseError.UnmatchedParenthesis = ParseError.InvalidLambda ∨
    ParseError.UnmatchedParenthesis = ParseError.InvalidApplication :=
  C6_three_errors_reachable.2.2.2 "(" .UnmatchedParenthesis rfl

theorem parse_var_length (s : List Char) (res : Except ParseError String) (r : List Char)
    (h : parse_var s = (res, r)) :
    r.length ≤ s.length ∧ ∀ n, res = .ok n → r.length < s.length := by
  simp only [parse_var] at h
  split at h
  · rw [Prod.mk.injEq] at h
    obtain ⟨h1, h2⟩ := h
    subst h1
    subst h2
    exact ⟨take_ident_snd_length s, by intro n hn; cases hn⟩
  · rename_i hne
    rw [Bool.not_eq_true] at hne
    rw [Prod.mk.injEq] at h
    obtain ⟨h1, h2⟩ := h
    subst h1
    subst h2
    exact ⟨take_ident_snd_length s, fun n _ => take_ident_snd_length_lt s hne⟩

/-- Consumption facts: every parsing function leaves a suffix of its input,
and a successful parse consumes at least one character. -/
theorem consumption : ∀ f : Nat,
    (∀ s res r, parse_term f s = some (res, r) →
      r.length ≤ s.length ∧ ∀ t, res = .ok t → r.length < s.length) ∧
    (∀ s res r, parse_non_application_term f s = some (res, r) →
      r.length ≤ s.length ∧ ∀ t, res = .ok t → r.length < s.length) ∧
    (∀ s res r, parse_lambda f s = some (res, r) →
      r.length ≤ s.length ∧ ∀ t, res = .ok t → r.length < s.length) ∧
    (∀ s res r, parse_application f s = some (res, r) →
      r.length ≤ s.length ∧ ∀ t, res = .ok t → r.length < s.length) ∧
    (∀ acc ts s r, parse_application_loop f acc s = some (ts, r) → r.length ≤ s.length) ∧
    (∀ s res r, parse_group_inner f s = some (res, r) →
      r.length ≤ s.length ∧ ∀ t, res = .ok t → r.length < s.length) := by
  intro f
  induction f with
  | zero =>
    refine ⟨?_, ?_, ?_, ?_, ?_, ?_⟩
    · intro s res r h; simp [parse_term] at h
    · intro s res r h; simp [parse_non_application_term] at h
    · intro s res r h; simp [parse_lambda] at h
    · intro s res r h; simp [parse_application] at h
    · intro acc ts s r h; simp [parse_application_loop] at h
    · intro s res r h; simp [parse_group_inner] at h
  | succ f ih =>
    obtain ⟨ihT, ihP, ihL, ihA, ihLoop, ihG⟩ := ih
    have hL : ∀ s res r, parse_lambda (f + 1) s = some (res, r) →
        r.length ≤ s.length ∧ ∀ t, res = .ok t → r.length < s.length := by
      intro s res r h
      simp only [parse_lambda] at h
      split at h
      · simp only [Option.some.injEq, Prod.mk.injEq] at h
        obtain ⟨h1, h2⟩ := h
        subst h1; subst h2
        exact ⟨by simp, by intro t ht; cases ht⟩
      · rename_i c s1
        split at h
        · split at h
          · rename_i e' s2 hpv
            simp only [Option.some.injEq, Prod.mk.injEq] at h
            obtain ⟨h1, h2⟩ := h
            subst h1; subst h2
            have := (parse_var_length s1 _ _ hpv).1
            exact ⟨by simp only [List.length_cons]; omega, by intro t ht; cases ht⟩
          · rename_i bind s2 hpv
            have hpv2 := (parse_var_length s1 _ _ hpv).2 bind rfl
            have hsw := skip_whitespace_length s2
            split at h
            · rename_i hsk
              simp only [Option.some.injEq, Prod.mk.injEq] at h
              obtain ⟨h1, h2⟩ := h
              subst h1; subst h2
              exact ⟨by simp, by intro t ht; cases ht⟩
            · rename_i c2 s4 hsk
              rw [hsk] at hsw
              simp only [List.length_cons] at hsw
              split at h
              · split at h
                · simp at h
                · rename_i e' s5 hpt
                  have := (ihT _ _ _ hpt).1
                  simp only [Option.some.injEq, Prod.mk.injEq] at h
                  obtain ⟨h1, h2⟩ := h
                  subst h1; subst h2
                  exact ⟨by simp only [List.length_cons]; omega, by intro t ht; cases ht⟩
                · rename_i body s5 hpt
                  have := (ihT _ _ _ hpt).1
                  simp only [Option.some.injEq, Prod.mk.injEq] at h
                  obtain ⟨h1, h2⟩ := h
                  subst h1; subst h2
                  refine ⟨by simp only [List.length_cons]; omega, ?_⟩
                  intro t ht
                  simp only [List.length_cons]
                  omega
              · simp only [Option.some.injEq, Prod.mk.injEq] at h
                obtain ⟨h1, h2⟩ := h
                subst h1; subst h2
                exact ⟨by simp only [List.length_cons]; omega, by intro t ht; cases ht⟩
        · simp only [Option.some.injEq, Prod.mk.injEq] at h
          obtain ⟨h1, h2⟩ := h
          subst h1; subst h2
          exact ⟨by simp, by intro t ht; cases ht⟩
    have hP : ∀ s res r, parse_non_application_term (f + 1) s = some (res, r) →
        r.length ≤ s.length ∧ ∀ t, res = .ok t → r.length < s.length := by
      intro s res r h
      simp only [parse_non_application_term] at h
      have hsw := skip_whitespace_length s
      split at h
      · simp only [Option.some.injEq, Prod.mk.injEq] at h
        obtain ⟨h1, h2⟩ := h
        subst h1; subst h2
        exact ⟨by simp, by intro t ht; cases ht⟩
      · rename_i c s2 hsk
        rw [hsk] at hsw
        simp only [List.length_cons] at hsw
        split at h
        · obtain ⟨hle, hlt⟩ := ihL _ _ _ h
          simp only [List.length_cons] at hle hlt
          refine ⟨by omega, ?_⟩
          intro t ht
          have := hlt t ht
          omega
        · split at h
          · split at h
            · rename_i name s3 hpv
              obtain ⟨hle, hlt⟩ := parse_var_length _ _ _ hpv
              have := hlt name rfl
              simp only [List.length_cons] at hle this
              simp only [Option.some.injEq, Prod.mk.injEq] at h
              obtain ⟨h1, h2⟩ := h
              subst h1; subst h2
              exact ⟨by omega, fun t _ => by omega⟩
            · rename_i e' s3 hpv
              obtain ⟨hle, _⟩ := parse_var_length _ _ _ hpv
              simp only [List.length_cons] at hle
              simp only [Option.some.injEq, Prod.mk.injEq] at h
              obtain ⟨h1, h2⟩ := h
              subst h1; subst h2
              exact ⟨by omega, by intro t ht; cases ht⟩
          · simp only [Option.some.injEq, Prod.mk.injEq] at h
            obtain ⟨h1, h2⟩ := h
            subst h1; subst h2
            exact ⟨by simp only [List.length_cons]; omega, by intro t ht; cases ht⟩
    have hA : ∀ s res r, parse_application (f + 1) s = some (res, r) →
        r.length ≤ s.length ∧ ∀ t, res = .ok t → r.length < s.length := by
      intro s res r h
      simp only [parse_application] at h
      split at h
      · simp at h
      · rename_i e' s1 hpt
        have := (ihT _ _ _ hpt).1
        simp only [Option.some.injEq, Prod.mk.injEq] at h
        obtain ⟨h1, h2⟩ := h
        subst h1; subst h2
        exact ⟨by omega, by intro t ht; cases ht⟩
      · rename_i t0 s1 hpt
        have hlt := (ihT _ _ _ hpt).2 t0 rfl
        split at h
        · simp at h
        · rename_i ts s2 hloop
          have hle2 := ihLoop _ _ _ _ hloop
          split at h
          · simp only [Option.some.injEq, Prod.mk.injEq] at h
            obtain ⟨h1, h2⟩ := h
            subst h1; subst h2
            exact ⟨by omega, by intro t ht; cases ht⟩
          · simp only [Option.some.injEq, Prod.mk.injEq] at h
            obtain ⟨h1, h2⟩ := h
            subst h1; subst h2
            exact ⟨by omega, fun t _ => by omega⟩
          · simp only [Option.some.injEq, Prod.mk.injEq] at h
            obtain ⟨h1, h2⟩ := h
            subst h1; subst h2
            exact ⟨by omega, fun t _ => by omega⟩
    have hLoop : ∀ acc ts s r, parse_application_loop (f + 1) acc s = some (ts, r) →
        r.length ≤ s.length := by
      intro acc ts s r h
      simp only [parse_application_loop] at h
      split at h
      · simp at h
      · rename_i t0 s1 hpt
        have := (ihT _ _ _ hpt).1
        have := ihLoop _ _ _ _ h
        omega
      · rename_i e' s1 hpt
        have := (ihT _ _ _ hpt).1
        simp only [Option.some.injEq, Prod.mk.injEq] at h
        obtain ⟨h1, h2⟩ := h
        subst h2
        omega
    have hG : ∀ s res r, parse_group_inner (f + 1) s = some (res, r) →
        r.length ≤ s.length ∧ ∀ t, res = .ok t → r.length < s.length := by
      intro s res r h
      simp only [parse_group_inner] at h
      split at h
      · simp only [Option.some.injEq, Prod.mk.injEq] at h
        obtain ⟨h1, h2⟩ := h
        subst h1; subst h2
        exact ⟨by simp, by intro t ht; cases ht⟩
      · split at h
        · exact ihL _ _ _ h
        · exact ihA _ _ _ h
    have hT : ∀ s res r, parse_term (f + 1) s = some (res, r) →
        r.length ≤ s.length ∧ ∀ t, res = .ok t → r.length < s.length := by
      intro s res r h
      simp only [parse_term] at h
      have hsw := skip_whitespace_length s
      split at h
      · obtain ⟨hle, hlt⟩ := ihP _ _ _ h
        simp only [List.length_nil] at hle hlt
        exact ⟨by omega, fun t ht => by have := hlt t ht; omega⟩
      · rename_i c s2 hsk
        rw [hsk] at hsw
        simp only [List.length_cons] at hsw
        split at h
        · split at h
          · simp at h
          · rename_i e' s3 hgi
            have := (ihG _ _ _ hgi).1
            simp only [Option.some.injEq, Prod.mk.injEq] at h
            obtain ⟨h1, h2⟩ := h
            subst h1; subst h2
            exact ⟨by omega, by intro t ht; cases ht⟩
          · rename_i t0 s3 hgi
            have hle3 := (ihG _ _ _ hgi).1
            split at h
            · simp only [Option.some.injEq, Prod.mk.injEq] at h
              obtain ⟨h1, h2⟩ := h
              subst h1; subst h2
              exact ⟨by simp, by intro t ht; cases ht⟩
            · rename_i c3 s4
              split at h
              · simp only [Option.some.injEq, Prod.mk.injEq] at h
                obtain ⟨h1, h2⟩ := h
                subst h1; subst h2
                simp only [List.length_cons] at hle3
                exact ⟨by omega, fun t _ => by omega⟩
              · simp only [Option.some.injEq, Prod.mk.injEq] at h
                obtain ⟨h1, h2⟩ := h
                subst h1; subst h2
                simp only [List.length_cons] at hle3
                exact ⟨by omega, by intro t ht; cases ht⟩
        · obtain ⟨hle, hlt⟩ := ihP _ _ _ h
          simp only [List.length_cons] at hle hlt
          exact ⟨by omega, fun t ht => by have := hlt t ht; omega⟩
    exact ⟨hT, hP, hL, hA, hLoop, hG⟩

/-- Fuel sufficiency: with fuel linear in the remaining input length, no
parsing function ever runs out of fuel. -/
theorem fuel_sufficient : ∀ f : Nat,
    (∀ s, 4 * s.length + 3 ≤ f → parse_term f s ≠ none) ∧
    (∀ s, 4 * s.length + 2 ≤ f → parse_non_application_term f s ≠ none) ∧
    (∀ s, 4 * s.length + 1 ≤ f → parse_lambda f s ≠ none) ∧
    (∀ s, 4 * s.length + 4 ≤ f → parse_application f s ≠ none) ∧
    (∀ acc s, 4 * s.length + 4 ≤ f → parse_application_loop f acc s ≠ none) ∧
    (∀ s, 4 * s.length + 5 ≤ f → parse_group_inner f s ≠ none) := by
  intro f
  induction f with
  | zero =>
    refine ⟨?_, ?_, ?_, ?_, ?_, ?_⟩
    · intro s h; exact absurd h (by omega)
    · intro s h; exact absurd h (by omega)
    · intro s h; exact absurd h (by omega)
    · intro s h; exact absurd h (by omega)
    · intro acc s h; exact absurd h (by omega)
    · intro s h; exact absurd h (by omega)
  | succ f ih =>
    obtain ⟨ihT, ihP, ihL, ihA, ihLoop, ihG⟩ := ih
    have hL : ∀ s, 4 * s.length + 1 ≤ f + 1 → parse_lambda (f + 1) s ≠ none := by
      intro s hf
      simp only [parse_lambda]
      split
      · simp
      · rename_i c s1
        simp only [List.length_cons] at hf
        split
        · split
          · simp
          · rename_i bind s2 hpv
            split
            · simp
            · rename_i c2 s4 hsk
              split
              · have hpv2 := (parse_var_length s1 _ _ hpv).2 bind rfl
                have hsw := skip_whitespace_length s2
                rw [hsk] at hsw
                simp only [List.length_cons] at hsw
                cases hpt : parse_term f s4 with
                | none => exact absurd hpt (ihT s4 (by omega))
                | some r =>
                  obtain ⟨res, s5⟩ := r
                  cases res <;> simp
              · simp
        · simp
    have hP : ∀ s, 4 * s.length + 2 ≤ f + 1 → parse_non_application_term (f + 1) s ≠ none := by
      intro s hf
      simp only [parse_non_application_term]
      split
      · simp
      · rename_i c s2 hsk
        have hsw := skip_whitespace_length s
        rw [hsk] at hsw
        simp only [List.length_cons] at hsw
        split
        · exact ihL (c :: s2) (by simp only [List.length_cons]; omega)
        · split
          · split
            · simp
            · simp
          · simp
    have hG : ∀ s, 4 * s.length + 5 ≤ f + 1 → parse_group_inner (f + 1) s ≠ none := by
      intro s hf
      simp only [parse_group_inner]
      split
      · simp
      · rename_i c2 rest
        simp only [List.length_cons] at hf
        split
        · exact ihL (c2 :: rest) (by simp only [List.length_cons]; omega)
        · exact ihA (c2 :: rest) (by simp only [List.length_cons]; omega)
    have hA : ∀ s, 4 * s.length + 4 ≤ f + 1 → parse_application (f + 1) s ≠ none := by
      intro s hf
      simp only [parse_application]
      cases hpt : parse_term f s with
      | none => exact absurd hpt (ihT s (by omega))
      | some r =>
        obtain ⟨res, s1⟩ := r
        cases res with
        | error e => simp
        | ok t =>
          dsimp only
          have hlt := ((consumption f).1 _ _ _ hpt).2 t rfl
          split
          · rename_i hloop
            exact absurd hloop (ihLoop [t] s1 (by omega))
          · rename_i ts s2 hloop
            cases ts with
            | nil => simp
            | cons t1 rest => cases rest <;> simp
    have hLoop : ∀ acc s, 4 * s.length + 4 ≤ f + 1 →
        parse_application_loop (f + 1) acc s ≠ none := by
      intro acc s hf
      simp only [parse_application_loop]
      cases hpt : parse_term f s with
      | none => exact absurd hpt (ihT s (by omega))
      | some r =>
        obtain ⟨res, s1⟩ := r
        cases res with
        | error e => simp
        | ok t =>
          have hlt := ((consumption f).1 _ _ _ hpt).2 t rfl
          exact ihLoop (acc ++ [t]) s1 (by omega)
    have hT : ∀ s, 4 * s.length + 3 ≤ f + 1 → parse_term (f + 1) s ≠ none := by
      intro s hf
      simp only [parse_term]
      split
      · exact ihP [] (by simp only [List.length_nil]; omega)
      · rename_i c s2 hsk
        have hsw := skip_whitespace_length s
        rw [hsk] at hsw
        simp only [List.length_cons] at hsw
        split
        · split
          · rename_i hgi
            exact absurd hgi (ihG s2 (by omega))
          · rename_i e s3 hgi
            simp
          · rename_i t s3 hgi
            cases s3 with
            | nil => simp
            | cons c3 s4 =>
              dsimp only
              split <;> simp
        · exact ihP (c :: s2) (by simp only [List.length_cons]; omega)
    exact ⟨hT, hP, hL, hA, hLoop, hG⟩

/-- C8: the parser is total and cannot fault: on every input string the fuel
budget used by `parse` is sufficient — `parseF` reaches a definitive
`Ok`-or-`Err` answer (never the out-of-fuel `none`) and `parse` returns
exactly that answer. -/
theorem C8_parse_total (input : String) :
    ∃ r : Except ParseError Term, parseF (4 * input.length + 6) input.data = some r ∧
      parse input = r := by
  have hlen : input.length = input.data.length := rfl
  have hne := (fuel_sufficient (4 * input.length + 6)).1 input.data (by omega)
  unfold parse parseF
  cases hpt : parse_term (4 * input.length + 6) input.data with
  | none => exact absurd hpt hne
  | some r =>
    obtain ⟨res, rest⟩ := r
    cases res with
    | error e => exact ⟨.error e, rfl, rfl⟩
    | ok t =>
      cases rest with
      | nil => exact ⟨.ok t, rfl, rfl⟩
      | cons a b => exact ⟨.error .InvalidApplication, rfl, rfl⟩

theorem ws_not_ident {c : Char} (h : c.isWhitespace = true) : is_ident_char c = false := by
  cases hi : is_ident_char c with
  | false => rfl
  | true => rw [ident_char_not_ws hi] at h; cases h

theorem skip_whitespace_append (s ws : List Char) (c : Char) (s2 : List Char)
    (h : skip_whitespace s = c :: s2) :
    skip_whitespace (s ++ ws) = c :: (s2 ++ ws) := by
  induction s with
  | nil => cases h
  | cons a s' ih =>
    by_cases ha : a.isWhitespace = true
    · rw [skip_whitespace_cons_of_ws _ ha] at h
      rw [List.cons_append, skip_whitespace_cons_of_ws _ ha]
      exact ih h
    · rw [Bool.not_eq_true] at ha
      rw [skip_whitespace_cons_of_not_ws _ ha] at h
      rw [List.cons_append, skip_whitespace_cons_of_not_ws _ ha]
      injection h with h1 h2
      rw [h1, h2]

theorem skip_whitespace_append_nil (s ws : List Char)
    (hws : ws.all Char.isWhitespace = true) (h : skip_whitespace s = []) :
    skip_whitespace (s ++ ws) = [] := by
  induction s with
  | nil => exact skip_whitespace_eq_nil ws hws
  | cons a s' ih =>
    by_cases ha : a.isWhitespace = true
    · rw [skip_whitespace_cons_of_ws _ ha] at h
      rw [List.cons_append, skip_whitespace_cons_of_ws _ ha]
      exact ih h
    · rw [Bool.not_eq_true] at ha
      rw [skip_whitespace_cons_of_not_ws _ ha] at h
      cases h

theorem take_ident_append_ws (s ws : List Char) (hws : ws.all Char.isWhitespace = true) :
    take_ident (s ++ ws) = ((take_ident s).1, (take_ident s).2 ++ ws) := by
  induction s with
  | nil =>
    simp only [List.nil_append, take_ident]
    cases ws with
    | nil => rfl
    | cons w ws' =>
      rw [List.all_cons, Bool.and_eq_true] at hws
      simp [take_ident, ws_not_ident hws.1]
  | cons c cs ih =>
    by_cases hc : is_ident_char c = true
    · simp only [List.cons_append, take_ident, hc, if_true, List.append_eq]
      rw [ih]
    · rw [Bool.not_eq_true] at hc
      simp [take_ident, hc]

theorem parse_var_append (s ws : List Char) (hws : ws.all Char.isWhitespace = true)
    (res : Except ParseError String) (r : List Char) (h : parse_var s = (res, r)) :
    parse_var (s ++ ws) = (res, r ++ ws) := by
  simp only [parse_var] at h ⊢
  rw [take_ident_append_ws s ws hws]
  by_cases hemp : (take_ident s).1.isEmpty = true
  · simp only [hemp, if_true] at h ⊢
    rw [Prod.mk.injEq] at h
    obtain ⟨h1, h2⟩ := h
    rw [h1, h2]
  · simp only [hemp, Bool.false_eq_true, if_false] at h ⊢
    rw [Prod.mk.injEq] at h
    obtain ⟨h1, h2⟩ := h
    rw [h1, h2]

theorem pnat_nil (g : Nat) :
    parse_non_application_term g [] = none ∨
    parse_non_application_term g [] = some (.error .InvalidApplication, []) := by
  cases g with
  | zero => exact Or.inl rfl
  | succ g => exact Or.inr rfl

/-- Extension: appending trailing whitespace to the input does not change a
successful parse (the whitespace simply remains unconsumed), and does not
change a failing parse that stopped before the end of the input.  The fuel
may grow on the appended run, which also gives fuel monotonicity. -/
theorem extension (ws : List Char) (hws : ws.all Char.isWhitespace = true) : ∀ f : Nat,
    (∀ f' s t r, f ≤ f' → parse_term f s = some (.ok t, r) →
      parse_term f' (s ++ ws) = some (.ok t, r ++ ws)) ∧
    (∀ f' s e r, f ≤ f' → parse_term f s = some (.error e, r) → r ≠ [] →
      parse_term f' (s ++ ws) = some (.error e, r ++ ws)) ∧
    (∀ f' s t r, f ≤ f' → parse_non_application_term f s = some (.ok t, r) →
      parse_non_application_term f' (s ++ ws) = some (.ok t, r ++ ws)) ∧
    (∀ f' s e r, f ≤ f' → parse_non_application_term f s = some (.error e, r) → r ≠ [] →
      parse_non_application_term f' (s ++ ws) = some (.error e, r ++ ws)) ∧
    (∀ f' s t r, f ≤ f' → parse_lambda f s = some (.ok t, r) →
      parse_lambda f' (s ++ ws) = some (.ok t, r ++ ws)) ∧
    (∀ f' s e r, f ≤ f' → parse_lambda f s = some (.error e, r) → r ≠ [] →
      parse_lambda f' (s ++ ws) = some (.error e, r ++ ws)) ∧
    (∀ f' s res r, f ≤ f' → parse_application f s = some (res, r) → r ≠ [] →
      parse_application f' (s ++ ws) = some (res, r ++ ws)) ∧
    (∀ f' acc ts s r, f ≤ f' → parse_application_loop f acc s = some (ts, r) → r ≠ [] →
      parse_application_loop f' acc (s ++ ws) = some (ts, r ++ ws)) ∧
    (∀ f' s res r, f ≤ f' → parse_group_inner f s = some (res, r) → r ≠ [] →
      parse_group_inner f' (s ++ ws) = some (res, r ++ ws)) := by
  intro f
  induction f with
  | zero =>
    refine ⟨?_, ?_, ?_, ?_, ?_, ?_, ?_, ?_, ?_⟩
    · intro f' s t r _ h; simp [parse_term] at h
    · intro f' s e r _ h; simp [parse_term] at h
    · intro f' s t r _ h; simp [parse_non_application_term] at h
    · intro f' s e r _ h; simp [parse_non_application_term] at h
    · intro f' s t r _ h; simp [parse_lambda] at h
    · intro f' s e r _ h; simp [parse_lambda] at h
    · intro f' s res r _ h; simp [parse_application] at h
    · intro f' acc ts s r _ h; simp [parse_application_loop] at h
    · intro f' s res r _ h; simp [parse_group_inner] at h
  | succ g ih =>
    obtain ⟨ihTo, ihTe, ihPo, ihPe, ihLo, ihLe, ihA, ihLoop, ihG⟩ := ih
    have hLo : ∀ f' s t r, g + 1 ≤ f' → parse_lambda (g + 1) s = some (.ok t, r) →
        parse_lambda f' (s ++ ws) = some (.ok t, r ++ ws) := by
      intro f' s t r hle h
      cases f' with
      | zero => omega
      | succ g' =>
        have hg : g ≤ g' := by omega
        simp only [parse_lambda] at h
        split at h
        · simp at h
        · rename_i c s1
          split at h
          · rename_i hc
            subst hc
            split at h
            · simp at h
            · rename_i bind s2 hpv
              split at h
              · simp at h
              · rename_i c2 s4 hsk
                split at h
                · rename_i hc2
                  subst hc2
                  split at h
                  · simp at h
                  · simp at h
                  · rename_i body s5 hpt
                    simp only [Option.some.injEq, Prod.mk.injEq, Except.ok.injEq] at h
                    obtain ⟨h1, h2⟩ := h
                    subst h2
                    have hpv' : parse_var (s1 ++ ws) = (.ok bind, s2 ++ ws) :=
                      parse_var_append s1 ws hws _ _ hpv
                    have hsk' : skip_whitespace (s2 ++ ws) = '.' :: (s4 ++ ws) :=
                      skip_whitespace_append s2 ws _ _ hsk
                    have hpt' : parse_term g' (s4 ++ ws) = some (.ok body, s5 ++ ws) :=
                      ihTo g' s4 body s5 hg hpt
                    simp only [List.cons_append, parse_lambda, hpv', hsk', hpt', ite_true, ite_false, Bool.false_eq_true, List.cons_append]
                    rw [h1]
                · simp at h
          · simp at h
    have hLe : ∀ f' s e r, g + 1 ≤ f' → parse_lambda (g + 1) s = some (.error e, r) →
        r ≠ [] → parse_lambda f' (s ++ ws) = some (.error e, r ++ ws) := by
      intro f' s e r hle h hrne
      cases f' with
      | zero => omega
      | succ g' =>
        have hg : g ≤ g' := by omega
        simp only [parse_lambda] at h
        split at h
        · simp only [Option.some.injEq, Prod.mk.injEq, Except.error.injEq] at h
          exact absurd h.2.symm hrne
        · rename_i c s1
          split at h
          · rename_i hc
            subst hc
            split at h
            · rename_i e' s2 hpv
              simp only [Option.some.injEq, Prod.mk.injEq, Except.error.injEq] at h
              obtain ⟨h1, h2⟩ := h
              subst h1
              subst h2
              have hpv' : parse_var (s1 ++ ws) = (.error e', s2 ++ ws) :=
                parse_var_append s1 ws hws _ _ hpv
              simp only [List.cons_append, parse_lambda, hpv', ite_true, ite_false, Bool.false_eq_true, List.cons_append]
            · rename_i bind s2 hpv
              split at h
              · simp only [Option.some.injEq, Prod.mk.injEq, Except.error.injEq] at h
                exact absurd h.2.symm hrne
              · rename_i c2 s4 hsk
                split at h
                · rename_i hc2
                  subst hc2
                  split at h
                  · simp at h
                  · rename_i e'' s5 hpt
                    simp only [Option.some.injEq, Prod.mk.injEq, Except.error.injEq] at h
                    obtain ⟨h1, h2⟩ := h
                    subst h1
                    subst h2
                    have hpv' : parse_var (s1 ++ ws) = (.ok bind, s2 ++ ws) :=
                      parse_var_append s1 ws hws _ _ hpv
                    have hsk' : skip_whitespace (s2 ++ ws) = '.' :: (s4 ++ ws) :=
                      skip_whitespace_append s2 ws _ _ hsk
                    have hpt' : parse_term g' (s4 ++ ws) = some (.error e'', s5 ++ ws) :=
                      ihTe g' s4 e'' s5 hg hpt hrne
                    simp only [List.cons_append, parse_lambda, hpv', hsk', hpt', ite_true, ite_false, Bool.false_eq_true, List.cons_append]
                  · simp at h
                · rename_i hc2
                  simp only [Option.some.injEq, Prod.mk.injEq, Except.error.injEq] at h
                  obtain ⟨h1, h2⟩ := h
                  subst h1
                  subst h2
                  have hpv' : parse_var (s1 ++ ws) = (.ok bind, s2 ++ ws) :=
                    parse_var_append s1 ws hws _ _ hpv
                  have hsk' : skip_whitespace (s2 ++ ws) = c2 :: (s4 ++ ws) :=
                    skip_whitespace_append s2 ws _ _ hsk
                  simp only [List.cons_append, parse_lambda, hpv', hsk', hc2, if_false, ite_true, ite_false, Bool.false_eq_true, List.cons_append]
          · rename_i hc
            simp only [Option.some.injEq, Prod.mk.injEq, Except.error.injEq] at h
            obtain ⟨h1, h2⟩ := h
            subst h1
            subst h2
            simp only [List.cons_append, parse_lambda, hc, if_false, ite_true, ite_false, Bool.false_eq_true, List.cons_append]
    have hPo : ∀ f' s t r, g + 1 ≤ f' → parse_non_application_term (g + 1) s = some (.ok t, r) →
        parse_non_application_term f' (s ++ ws) = some (.ok t, r ++ ws) := by
      intro f' s t r hle h
      cases f' with
      | zero => omega
      | succ g' =>
        have hg : g ≤ g' := by omega
        simp only [parse_non_application_term] at h
        split at h
        · simp at h
        · rename_i c s2 hsk
          have hsk' : skip_whitespace (s ++ ws) = c :: (s2 ++ ws) :=
            skip_whitespace_append s ws _ _ hsk
          split at h
          · rename_i hc
            subst hc
            have hlam : parse_lambda g' ('λ' :: (s2 ++ ws)) = some (.ok t, r ++ ws) :=
              ihLo g' ('λ' :: s2) t r hg h
            simp only [parse_non_application_term, hsk', ite_true, ite_false, Bool.false_eq_true, List.cons_append]
            exact hlam
          · rename_i hc
            split at h
            · rename_i hi
              split at h
              · rename_i name s3 hpv
                simp only [Option.some.injEq, Prod.mk.injEq, Except.ok.injEq] at h
                obtain ⟨h1, h2⟩ := h
                subst h2
                have hpv' : parse_var (c :: (s2 ++ ws)) = (.ok name, s3 ++ ws) :=
                  parse_var_append (c :: s2) ws hws _ _ hpv
                simp only [parse_non_application_term, hsk', hc, hi, if_true, if_false, hpv', ite_true, ite_false, Bool.false_eq_true, List.cons_append]
                rw [h1]
              · simp at h
            · simp at h
    have hPe : ∀ f' s e r, g + 1 ≤ f' →
        parse_non_application_term (g + 1) s = some (.error e, r) → r ≠ [] →
        parse_non_application_term f' (s ++ ws) = some (.error e, r ++ ws) := by
      intro f' s e r hle h hrne
      cases f' with
      | zero => omega
      | succ g' =>
        have hg : g ≤ g' := by omega
        simp only [parse_non_application_term] at h
        split at h
        · simp only [Option.some.injEq, Prod.mk.injEq, Except.error.injEq] at h
          exact absurd h.2.symm hrne
        · rename_i c s2 hsk
          have hsk' : skip_whitespace (s ++ ws) = c :: (s2 ++ ws) :=
            skip_whitespace_append s ws _ _ hsk
          split at h
          · rename_i hc
            subst hc
            have hlam : parse_lambda g' ('λ' :: (s2 ++ ws)) = some (.error e, r ++ ws) :=
              ihLe g' ('λ' :: s2) e r hg h hrne
            simp only [parse_non_application_term, hsk', ite_true, ite_false, Bool.false_eq_true, List.cons_append]
            exact hlam
          · rename_i hc
            split at h
            · rename_i hi
              split at h
              · simp at h
              · rename_i e' s3 hpv
                simp only [Option.some.injEq, Prod.mk.injEq, Except.error.injEq] at h
                obtain ⟨h1, h2⟩ := h
                subst h1
                subst h2
                have hpv' : parse_var (c :: (s2 ++ ws)) = (.error e', s3 ++ ws) :=
                  parse_var_append (c :: s2) ws hws _ _ hpv
                simp only [parse_non_application_term, hsk', hc, hi, if_true, if_false, hpv', ite_true, ite_false, Bool.false_eq_true, List.cons_append]
            · rename_i hi
              simp only [Option.some.injEq, Prod.mk.injEq, Except.error.injEq] at h
              obtain ⟨h1, h2⟩ := h
              subst h1
              subst h2
              simp only [parse_non_application_term, hsk', hc, hi, if_false, ite_true, ite_false, Bool.false_eq_true, List.cons_append]
    have hG : ∀ f' s res r, g + 1 ≤ f' → parse_group_inner (g + 1) s = some (res, r) →
        r ≠ [] → parse_group_inner f' (s ++ ws) = some (res, r ++ ws) := by
      intro f' s res r hle h hrne
      cases f' with
      | zero => omega
      | succ g' =>
        have hg : g ≤ g' := by omega
        simp only [parse_group_inner] at h
        split at h
        · simp only [Option.some.injEq, Prod.mk.injEq] at h
          exact absurd h.2.symm hrne
        · rename_i c2 rest
          split at h
          · rename_i hc
            subst hc
            cases res with
            | ok t =>
              have := ihLo g' ('λ' :: rest) t r hg h
              simp only [List.cons_append, parse_group_inner, ite_true, ite_false, Bool.false_eq_true, List.cons_append]
              exact this
            | error e =>
              have := ihLe g' ('λ' :: rest) e r hg h hrne
              simp only [List.cons_append, parse_group_inner, ite_true, ite_false, Bool.false_eq_true, List.cons_append]
              exact this
          · rename_i hc
            have := ihA g' (c2 :: rest) res r hg h hrne
            simp only [List.cons_append, parse_group_inner, hc, if_false, ite_true, ite_false, Bool.false_eq_true, List.cons_append]
            exact this
    have hA : ∀ f' s res r, g + 1 ≤ f' → parse_application (g + 1) s = some (res, r) →
        r ≠ [] → parse_application f' (s ++ ws) = some (res, r ++ ws) := by
      intro f' s res r hle h hrne
      cases f' with
      | zero => omega
      | succ g' =>
        have hg : g ≤ g' := by omega
        simp only [parse_application] at h
        split at h
        · simp at h
        · rename_i e' s1 hpt
          simp only [Option.some.injEq, Prod.mk.injEq] at h
          obtain ⟨h1, h2⟩ := h
          subst h1
          subst h2
          have hpt' : parse_term g' (s ++ ws) = some (.error e', s1 ++ ws) :=
            ihTe g' s e' s1 hg hpt hrne
          simp only [parse_application, hpt', ite_true, ite_false, Bool.false_eq_true, List.cons_append]
        · rename_i t0 s1 hpt
          have hpt' : parse_term g' (s ++ ws) = some (.ok t0, s1 ++ ws) :=
            ihTo g' s t0 s1 hg hpt
          split at h
          · simp at h
          · rename_i ts s2 hloop
            have hloop' : parse_application_loop g' [t0] (s1 ++ ws) = some (ts, s2 ++ ws) := by
              refine ihLoop g' [t0] ts s1 s2 hg hloop ?_
              intro hs2
              subst hs2
              split at h <;>
                simp only [Option.some.injEq, Prod.mk.injEq] at h <;>
                exact absurd h.2.symm hrne
            split at h <;>
              simp only [Option.some.injEq, Prod.mk.injEq] at h <;>
              obtain ⟨h1, h2⟩ := h <;>
              subst h1 <;>
              subst h2 <;>
              simp only [parse_application, hpt', hloop', ite_true, ite_false, Bool.false_eq_true, List.cons_append]
    have hLoop : ∀ f' acc ts s r, g + 1 ≤ f' →
        parse_application_loop (g + 1) acc s = some (ts, r) → r ≠ [] →
        parse_application_loop f' acc (s ++ ws) = some (ts, r ++ ws) := by
      intro f' acc ts s r hle h hrne
      cases f' with
      | zero => omega
      | succ g' =>
        have hg : g ≤ g' := by omega
        simp only [parse_application_loop] at h
        split at h
        · simp at h
        · rename_i t0 s1 hpt
          have hpt' : parse_term g' (s ++ ws) = some (.ok t0, s1 ++ ws) :=
            ihTo g' s t0 s1 hg hpt
          have hrec : parse_application_loop g' (acc ++ [t0]) (s1 ++ ws) =
              some (ts, r ++ ws) :=
            ihLoop g' (acc ++ [t0]) ts s1 r hg h hrne
          simp only [parse_application_loop, hpt', hrec, ite_true, ite_false, Bool.false_eq_true, List.cons_append]
        · rename_i e' s1 hpt
          simp only [Option.some.injEq, Prod.mk.injEq] at h
          obtain ⟨h1, h2⟩ := h
          subst h1
          subst h2
          have hpt' : parse_term g' (s ++ ws) = some (.error e', s1 ++ ws) :=
            ihTe g' s e' s1 hg hpt hrne
          simp only [parse_application_loop, hpt', ite_true, ite_false, Bool.false_eq_true, List.cons_append]
    have hTo : ∀ f' s t r, g + 1 ≤ f' → parse_term (g + 1) s = some (.ok t, r) →
        parse_term f' (s ++ ws) = some (.ok t, r ++ ws) := by
      intro f' s t r hle h
      cases f' with
      | zero => omega
      | succ g' =>
        have hg : g ≤ g' := by omega
        simp only [parse_term] at h
        split at h
        · rcases pnat_nil g with he | he <;> rw [he] at h <;> simp at h
        · rename_i c s2 hsk
          have hsk' : skip_whitespace (s ++ ws) = c :: (s2 ++ ws) :=
            skip_whitespace_append s ws _ _ hsk
          split at h
          · rename_i hc
            split at h
            · simp at h
            · simp at h
            · rename_i t0 s3 hgi
              split at h
              · simp at h
              · rename_i c3 s4
                split at h
                · rename_i hc3
                  subst hc3
                  simp only [Option.some.injEq, Prod.mk.injEq, Except.ok.injEq] at h
                  obtain ⟨h1, h2⟩ := h
                  subst h2
                  have hgi' : parse_group_inner g' (s2 ++ ws) =
                      some (.ok t0, ')' :: (s4 ++ ws)) :=
                    ihG g' s2 (.ok t0) (')' :: s4) hg hgi (by simp)
                  simp only [parse_term, hsk', hc, if_true, hgi', ite_true, ite_false, Bool.false_eq_true, List.cons_append]
                  rw [h1]
                · simp at h
          · rename_i hc
            have := ihPo g' (c :: s2) t r hg h
            simp only [parse_term, hsk', hc, if_false, ite_true, ite_false, Bool.false_eq_true, List.cons_append]
            exact this
    have hTe : ∀ f' s e r, g + 1 ≤ f' → parse_term (g + 1) s = some (.error e, r) →
        r ≠ [] → parse_term f' (s ++ ws) = some (.error e, r ++ ws) := by
      intro f' s e r hle h hrne
      cases f' with
      | zero => omega
      | succ g' =>
        have hg : g ≤ g' := by omega
        simp only [parse_term] at h
        split at h
        · rcases pnat_nil g with he | he <;> rw [he] at h
          · simp at h
          · simp only [Option.some.injEq, Prod.mk.injEq, Except.error.injEq] at h
            exact absurd h.2.symm hrne
        · rename_i c s2 hsk
          have hsk' : skip_whitespace (s ++ ws) = c :: (s2 ++ ws) :=
            skip_whitespace_append s ws _ _ hsk
          split at h
          · rename_i hc
            split at h
            · simp at h
            · rename_i e' s3 hgi
              simp only [Option.some.injEq, Prod.mk.injEq, Except.error.injEq] at h
              obtain ⟨h1, h2⟩ := h
              subst h1
              subst h2
              have hgi' : parse_group_inner g' (s2 ++ ws) = some (.error e', s3 ++ ws) :=
                ihG g' s2 (.error e') s3 hg hgi hrne
              simp only [parse_term, hsk', hc, if_true, hgi', ite_true, ite_false, Bool.false_eq_true, List.cons_append]
            · rename_i t0 s3 hgi
              split at h
              · simp only [Option.some.injEq, Prod.mk.injEq, Except.error.injEq] at h
                exact absurd h.2.symm hrne
              · rename_i c3 s4
                split at h
                · simp at h
                · rename_i hc3
                  simp only [Option.some.injEq, Prod.mk.injEq, Except.error.injEq] at h
                  obtain ⟨h1, h2⟩ := h
                  subst h1
                  subst h2
                  have hgi' : parse_group_inner g' (s2 ++ ws) =
                      some (.ok t0, c3 :: (s4 ++ ws)) :=
                    ihG g' s2 (.ok t0) (c3 :: s4) hg hgi (by simp)
                  simp only [parse_term, hsk', hc, if_true, hgi', hc3, if_false, ite_true, ite_false, Bool.false_eq_true, List.cons_append]
          · rename_i hc
            have := ihPe g' (c :: s2) e r hg h hrne
            simp only [parse_term, hsk', hc, if_false, ite_true, ite_false, Bool.false_eq_true, List.cons_append]
            exact this
    exact ⟨hTo, hTe, hPo, hPe, hLo, hLe, hA, hLoop, hG⟩

/-- C4 (amended): trailing whitespace after a valid term is rejected, not
accepted: `parse` fails with `InvalidApplication` on any remaining input,
whitespace included.  (The driver in `main.rs` trims the line before calling
`parse`, which is why trailing whitespace on a typed line is harmless in
practice.) -/
theorem C4_trailing_whitespace_rejected (input ws : String) (t : Term)
    (hok : parse input = .ok t) (hws : ws.data.all Char.isWhitespace = true)
    (hne : ws.data ≠ []) :
    parse (input ++ ws) = .error .InvalidApplication := by
  have hterm := parse_ok_full_consumption input t hok
  have hlen : (input ++ ws).length = input.length + ws.length := String.length_append input ws
  have hext := (extension ws.data hws (4 * input.length + 6)).1
    (4 * (input ++ ws).length + 6) input.data t [] (by omega) hterm
  simp only [List.nil_append] at hext
  have hdata : (input ++ ws).data = input.data ++ ws.data := String.data_append input ws
  unfold parse parseF
  rw [hdata, hext]
  cases hwd : ws.data with
  | nil => exact absurd hwd hne
  | cons w ws' => rfl

/-- C4 witness: the amended statement applied at the claim's own example,
the input `x` followed by one space. -/
theorem C4_trailing_whitespace_rejected_witness :
    parse ("x" ++ " ") = .error .InvalidApplication :=
  C4_trailing_whitespace_rejected "x" " " (.Var "x") rfl rfl (by decide)
